import Mathlib

/-!
Verification of the reactive state-propagation core of the vizparse
repository (`src/index.js`, with the earlier prototype in
`src/old_view_code.js`).

The development has two layers.

Layer 1 (store and scheduler): a shallow embedding of the `state` object of
`src/index.js` — its `data` mapping, `changedFields` set, `setData`
gateway, the access-guarding Proxy handlers of
`setupDataForPassingToComponents`, and the mount/tick loops of
`reactifyYourApp`.  Field values are modelled by the inductive `Value`;
components are records carrying their lifecycle hooks.  A hook is modelled
as a function from the data view it is handed (the Proxy is lazy, so in
`index.js` that view is read from the live `state.data` at the moment the
hook runs) to the list of `setData` calls the hook performs.  The
scheduler functions also produce a trace of `Event`s recording, for each
hook invocation, which registered entry ran, which hook kind, and the
data view it observed.

Layer 2 (heap): an explicit-heap model of JavaScript values (`JSVal`
references into a `Heap` of array/object `Cell`s) used for the claims
about aliasing and deep cloning: `cloneDeep` of `index.js`, the
`cloneDeep` of `old_view_code.js` (whose object branch is missing its
return statement), and the old `setData` with a function patch.
Structural equality of two heap values is the executable relation
`equivVal` (fuel-indexed, one unit of fuel per visited node).
-/

/-- A primitive JavaScript value stored in a state field. -/
inductive Value
  | undef
  | boolV (b : Bool)
  | num (n : Int)
  | str (s : String)
deriving DecidableEq, Repr

/-- The mapping owned by the store (`state.data` in the source): an
association list from field names to values, in insertion order. -/
abbrev StoreData := List (String × Value)

/-- Reading a property of a JavaScript object: the first binding of the
field wins, and a missing field reads as `undefined`. -/
def lookupField : StoreData → String → Value
  | [], _ => .undef
  | (g, v) :: rest, f => if g = f then v else lookupField rest f

/-- Property assignment `this.data[field] = value`: overwrite the existing
binding, or append a new one when the field is absent. -/
def setField : StoreData → String → Value → StoreData
  | [], f, v => [(f, v)]
  | (g, w) :: rest, f, v =>
    if g = f then (g, v) :: rest else (g, w) :: setField rest f v

/-- The store: `state.data` together with `state.changedFields`.  The
change set is modelled as a duplicate-free list used only through
membership and emptiness, mirroring a JavaScript `Set`. -/
structure StoreState where
  data : StoreData
  changed : List String
deriving DecidableEq, Repr

/-- Insertion into `changedFields` (`Set.add`). -/
def addChanged (cs : List String) (f : String) : List String :=
  if f ∈ cs then cs else cs ++ [f]

/-- The mutation gateway `state.setData` of `src/index.js`: for each field
of the patch object, in order, overwrite the stored value and add the
field to the change set.  There is no comparison with the old value and no
check that the field already exists. -/
def setData (st : StoreState) (patch : List (String × Value)) : StoreState :=
  patch.foldl
    (fun st fv => { data := setField st.data fv.1 fv.2
                    changed := addChanged st.changed fv.1 }) st

/-- The error text thrown by the `get` handler inside
`setupDataForPassingToComponents` for a field outside the entitlement
list.  The message embeds the offending field name. -/
def unsubscribedMsg (f : String) : String :=
  "you are not subscribed to the field " ++ f ++
    ", please subscribe (or place it in accesses) before attempting to access it"

/-- The error text thrown by the `set` handler of the data Proxy. -/
def mustUseSetDataMsg : String :=
  "you should not mutate state directly; use setData."

/-- The `get` handler of the Proxy built by
`setupDataForPassingToComponents fields accesses`: the handler scans the
concatenated list `fields ++ accesses` for the requested name; on a hit it
returns the live store value `this.data[field]`, otherwise it throws. -/
def setupDataGet (fields accesses : List String) (d : StoreData) (f : String) :
    Except String Value :=
  if f ∈ fields ++ accesses then .ok (lookupField d f)
  else .error (unsubscribedMsg f)

/-- The `set` handler of the data Proxy: every write attempt throws and
nothing is modified. -/
def setupDataSet (_d : StoreData) (_f : String) (_v : Value) :
    Except String StoreData :=
  .error mustUseSetDataMsg

/-- The behaviour of one lifecycle hook: given the data view handed to the
hook, the list of patches it passes to `setData`, in call order. -/
abbrev Hook := StoreData → List (List (String × Value))

/-- One entry of `state.subscribedComponents`: the component (represented
by its hooks), the subscribed `fields`, and `opts.accesses`.  In
`src/index.js` the mount phase calls `component.mount` unconditionally, so
`mount` is not optional; `mountAndUpdate` and `update` are invoked behind
presence checks (`component.mountAndUpdate && ...`). -/
structure Entry where
  mount : Hook
  mountAndUpdate : Option Hook
  update : Option Hook
  fields : List String
  accesses : List String

/-- Which lifecycle hook an event records. -/
inductive HookKind
  | mount
  | mountAndUpdate
  | update
deriving DecidableEq, Repr

/-- One hook invocation in the scheduler trace: the registration index of
the entry, the hook that ran, and the data view it observed. -/
structure Event where
  idx : Nat
  kind : HookKind
  view : StoreData
deriving DecidableEq, Repr

/-- The entitlement list of an entry: inside
`setupDataForPassingToComponents` the source computes
`fields = [...fields, ...accesses]`. -/
def entitlement (e : Entry) : List String := e.fields ++ e.accesses

/-- The data view a hook observes through the lazy Proxy at the moment it
runs: each entitled field read from the given store data. -/
def viewOf (ent : List String) (d : StoreData) : StoreData :=
  ent.map (fun f => (f, lookupField d f))

/-- Apply the sequence of `setData` calls a hook performed. -/
def applyPatches (st : StoreState) (ps : List (List (String × Value))) :
    StoreState :=
  ps.foldl setData st

/-- Run an optional hook (`component.mountAndUpdate && ...` and
`component.update && ...` in the source): absent hooks do nothing and
produce no event. -/
def runOptHook (st : StoreState) (i : Nat) (k : HookKind) (ent : List String) :
    Option Hook → StoreState × List Event
  | none => (st, [])
  | some hk =>
    let v := viewOf ent st.data
    (applyPatches st (hk v), [⟨i, k, v⟩])

/-- One step of the mount loop of `reactifyYourApp`: build the data Proxy,
call `component.mount({ data })`, then `component.mountAndUpdate` when
present. -/
def mountStep (st : StoreState) (ie : Nat × Entry) : StoreState × List Event :=
  let ent := entitlement ie.2
  let v := viewOf ent st.data
  let st₁ := applyPatches st (ie.2.mount v)
  let r := runOptHook st₁ ie.1 .mountAndUpdate ent ie.2.mountAndUpdate
  (r.1, ⟨ie.1, .mount, v⟩ :: r.2)

/-- The mount loop of `reactifyYourApp`, over the registered entries in
registration order. -/
def mountPhase : List (Nat × Entry) → StoreState → StoreState × List Event
  | [], st => (st, [])
  | ie :: rest, st =>
    let r := mountStep st ie
    let r₂ := mountPhase rest r.1
    (r₂.1, r.2 ++ r₂.2)

/-- The inner loop of the tick callback (`for (field of fields) ... break`):
scan the subscribed fields and stop at the first one found in the change
set. -/
def scanFields : List String → List String → Bool
  | [], _ => false
  | f :: fs, changed => if f ∈ changed then true else scanFields fs changed

/-- The collection loop of the tick callback: walk
`subscribedComponents` in registration order and push every entry one of
whose subscribed fields is in the change set (`componentsToUpdate`). -/
def collectToUpdate : List (Nat × Entry) → List String → List (Nat × Entry)
  | [], _ => []
  | ie :: rest, changed =>
    if scanFields ie.2.fields changed then ie :: collectToUpdate rest changed
    else collectToUpdate rest changed

/-- The body of the batched update loop for one affected entry:
`component.mountAndUpdate && component.mountAndUpdate({ data })` then
`component.update && component.update({ data })`. -/
def updateStep (st : StoreState) (ie : Nat × Entry) : StoreState × List Event :=
  let ent := entitlement ie.2
  let r := runOptHook st ie.1 .mountAndUpdate ent ie.2.mountAndUpdate
  let r₂ := runOptHook r.1 ie.1 .update ent ie.2.update
  (r₂.1, r.2 ++ r₂.2)

/-- The batched update loop over `componentsToUpdate`. -/
def updateAll : List (Nat × Entry) → StoreState → StoreState × List Event
  | [], st => (st, [])
  | ie :: rest, st =>
    let r := updateStep st ie
    let r₂ := updateAll rest r.1
    (r₂.1, r.2 ++ r₂.2)

/-- One tick of the `requestAnimationFrame` callback of `reactifyYourApp`
(`src/index.js`): when the change set is non-empty, collect the affected
entries, run their update-phase hooks in registration order, and then
replace `changedFields` by a fresh empty set; when the change set is
empty, do nothing. -/
def tick (reg : List (Nat × Entry)) (st : StoreState) : StoreState × List Event :=
  if st.changed = [] then (st, [])
  else
    let r := updateAll (collectToUpdate reg st.changed) st
    ({ r.1 with changed := [] }, r.2)

/-- Iterated ticks of the scheduler loop. -/
def ticks : Nat → List (Nat × Entry) → StoreState → StoreState × List Event
  | 0, _, st => (st, [])
  | n+1, reg, st =>
    let r := tick reg st
    let r₂ := ticks n reg r.1
    (r₂.1, r.2 ++ r₂.2)

/-- A whole run of `reactifyYourApp`: the mount phase followed by `n`
animation-frame ticks. -/
def runApp (reg : List (Nat × Entry)) (st : StoreState) (n : Nat) :
    StoreState × List Event :=
  let r := mountPhase reg st
  let r₂ := ticks n reg r.1
  (r₂.1, r.2 ++ r₂.2)

/-!
Layer 2: the explicit-heap model of JavaScript values, used for the
aliasing and deep-cloning claims.  A `JSVal` is either a primitive or a
reference (an address) into a `Heap` of composite cells; `typeof` of a
primitive is not the string `object`, while both arrays and plain objects
are `object`-typed, which matches the dispatch inside `cloneDeep`.
-/

/-- A JavaScript value: a primitive, or a reference to a heap cell. -/
inductive JSVal
  | prim (p : Value)
  | ref (a : Nat)
deriving DecidableEq, Repr

/-- A mutable composite cell: an array of values or a plain object of
key-value entries in insertion order. -/
inductive Cell
  | arrC (elems : List JSVal)
  | objC (entries : List (String × JSVal))
deriving DecidableEq, Repr

/-- The heap: addresses are list indices; allocation appends at the end,
so a cell can only reference previously allocated cells. -/
abbrev Heap := List Cell

/-- Bound on a root value: a reference must point below `n`. -/
def valBelow : JSVal → Nat → Bool
  | .prim _, _ => true
  | .ref a, n => decide (a < n)

/-- Bound on every value stored in a cell. -/
def cellBelow : Cell → Nat → Bool
  | .arrC es, n => es.all (fun e => valBelow e n)
  | .objC kvs, n => kvs.all (fun kv => valBelow kv.2 n)

/-- Auxiliary scan for `heapWF`, carrying the address of the next cell. -/
def heapWFAux : Nat → Heap → Bool
  | _, [] => true
  | n, c :: cs => cellBelow c n && heapWFAux (n+1) cs

/-- Well-formedness of a heap: every cell references only strictly lower
addresses.  JavaScript allocation order guarantees this for the acyclic
values these prototypes store (and `cloneDeep` in the source would not
terminate on a cyclic value anyway). -/
def heapWF (h : Heap) : Bool := heapWFAux 0 h

/-- Structural equality of two heap values, the executable form of
"the views of the two values are equal trees".  The fuel argument is
consumed one unit per visited node; with zero fuel the comparison gives
up and answers `false`. -/
def equivVal : Nat → Heap → JSVal → Heap → JSVal → Bool
  | 0, _, _, _, _ => false
  | _+1, _, .prim p, _, .prim q => p == q
  | g+1, h₁, .ref a, h₂, .ref b =>
    match h₁[a]?, h₂[b]? with
    | some (.arrC es), some (.arrC fs) =>
      es.length == fs.length && (es.zip fs).all fun p => equivVal g h₁ p.1 h₂ p.2
    | some (.objC kvs), some (.objC lws) =>
      kvs.length == lws.length &&
        (kvs.zip lws).all fun p => p.1.1 == p.2.1 && equivVal g h₁ p.1.2 h₂ p.2.2
    | _, _ => false
  | _+1, _, _, _, _ => false

/-- Failure modes of the clone interpreters: running out of fuel, a
dangling reference, and the TypeError raised by `for (let val of data)`
when the array-detection heuristic `data.hasOwnProperty(\x27length\x27)`
sends a plain (non-iterable) object into the array branch. -/
inductive CloneErr
  | fuelOut
  | badRef
  | notIterable
deriving DecidableEq, Repr

mutual

/-- The `cloneDeep` of `src/index.js`.  Scalars (`typeof data !==
\x27object\x27`) are returned as-is; a value with an own `length`
property is treated as an array and copied element-wise into a fresh
cell; otherwise the value is copied key-wise into a fresh cell.  A plain
object that happens to own a `length` key takes the array branch, where
iterating it throws (`notIterable`). -/
def cloneDeep : Nat → Heap → JSVal → Except CloneErr (Heap × JSVal)
  | 0, _, _ => .error .fuelOut
  | _+1, h, .prim p => .ok (h, .prim p)
  | fuel+1, h, .ref a =>
    match h[a]? with
    | none => .error .badRef
    | some (.arrC es) => do
      let (h₁, es') ← cloneMany fuel h es
      .ok (h₁ ++ [.arrC es'], .ref h₁.length)
    | some (.objC kvs) =>
      if kvs.any (fun kv => kv.1 == "length") then .error .notIterable
      else do
        let (h₁, kvs') ← cloneEntries fuel h kvs
        .ok (h₁ ++ [.objC kvs'], .ref h₁.length)

/-- The element loop `for (let val of data) ret.push(cloneDeep(val))`. -/
def cloneMany : Nat → Heap → List JSVal → Except CloneErr (Heap × List JSVal)
  | 0, _, _ => .error .fuelOut
  | _+1, h, [] => .ok (h, [])
  | fuel+1, h, e :: es => do
    let (h₁, e') ← cloneDeep fuel h e
    let (h₂, es') ← cloneMany fuel h₁ es
    .ok (h₂, e' :: es')

/-- The key loop `for (let key in data) ret[key] = cloneDeep(data[key])`. -/
def cloneEntries : Nat → Heap → List (String × JSVal) →
    Except CloneErr (Heap × List (String × JSVal))
  | 0, _, _ => .error .fuelOut
  | _+1, h, [] => .ok (h, [])
  | fuel+1, h, kv :: kvs => do
    let (h₁, v') ← cloneDeep fuel h kv.2
    let (h₂, kvs') ← cloneEntries fuel h₁ kvs
    .ok (h₂, (kv.1, v') :: kvs')

end

mutual

/-- The `cloneDeep` of `src/old_view_code.js`.  Identical to the one in
`index.js` except that its object branch builds `ret` and then falls off
the end of the function without a `return` statement: the recursive
child clones still run (and allocate), but the call evaluates to
`undefined` and the built object is lost. -/
def cloneDeepOld : Nat → Heap → JSVal → Except CloneErr (Heap × JSVal)
  | 0, _, _ => .error .fuelOut
  | _+1, h, .prim p => .ok (h, .prim p)
  | fuel+1, h, .ref a =>
    match h[a]? with
    | none => .error .badRef
    | some (.arrC es) => do
      let (h₁, es') ← cloneManyOld fuel h es
      .ok (h₁ ++ [.arrC es'], .ref h₁.length)
    | some (.objC kvs) =>
      if kvs.any (fun kv => kv.1 == "length") then .error .notIterable
      else do
        let (h₁, _kvs') ← cloneEntriesOld fuel h kvs
        .ok (h₁, .prim .undef)

/-- Element loop of the old `cloneDeep`. -/
def cloneManyOld : Nat → Heap → List JSVal → Except CloneErr (Heap × List JSVal)
  | 0, _, _ => .error .fuelOut
  | _+1, h, [] => .ok (h, [])
  | fuel+1, h, e :: es => do
    let (h₁, e') ← cloneDeepOld fuel h e
    let (h₂, es') ← cloneManyOld fuel h₁ es
    .ok (h₂, e' :: es')

/-- Key loop of the old `cloneDeep`. -/
def cloneEntriesOld : Nat → Heap → List (String × JSVal) →
    Except CloneErr (Heap × List (String × JSVal))
  | 0, _, _ => .error .fuelOut
  | _+1, h, [] => .ok (h, [])
  | fuel+1, h, kv :: kvs => do
    let (h₁, v') ← cloneDeepOld fuel h kv.2
    let (h₂, kvs') ← cloneEntriesOld fuel h₁ kvs
    .ok (h₂, (kv.1, v') :: kvs')

end

/-- Property read on a heap-valued object (first binding wins, missing
reads as `undefined`). -/
def lookupEntries : List (String × JSVal) → String → JSVal
  | [], _ => .prim .undef
  | (g, v) :: rest, f => if g = f then v else lookupEntries rest f

/-- Property assignment on a heap-valued object. -/
def objSet : List (String × JSVal) → String → JSVal → List (String × JSVal)
  | [], f, v => [(f, v)]
  | (g, w) :: rest, f, v =>
    if g = f then (g, v) :: rest else (g, w) :: objSet rest f v

/-- In-place write of one field of the object cell at address `a`
(`this.data[field] = dataObj[field]` in the old `setData`). -/
def writeDataField (h : Heap) (a : Nat) (f : String) (v : JSVal) : Heap :=
  match h[a]? with
  | some (.objC kvs) => h.set a (.objC (objSet kvs f v))
  | _ => h

/-- The argument accepted by the old `setData`: a literal patch object, or
a function from the (supposedly cloned) current state to a patch. -/
inductive PatchArg
  | lit (p : List (String × JSVal))
  | fn (f : JSVal → List (String × JSVal))

/-- The field loop shared by both branches of the old `setData`. -/
def applyPatchOld (h : Heap) (a : Nat) (changed : List String)
    (p : List (String × JSVal)) : Heap × List String :=
  p.foldl (fun acc fv => (writeDataField acc.1 a fv.1 fv.2, addChanged acc.2 fv.1))
    (h, changed)

/-- The `setData` of `src/old_view_code.js` (the store whose data lives in
the object cell at `dataAddr`): a function argument is first applied to
`cloneDeep(this.data)`, then the resulting patch is written field by
field, marking each field changed. -/
def setDataOld (fuel : Nat) (h : Heap) (dataAddr : Nat) (changed : List String) :
    PatchArg → Except CloneErr (Heap × List String)
  | .lit p => .ok (applyPatchOld h dataAddr changed p)
  | .fn f => do
    let (h₁, snap) ← cloneDeepOld fuel h (.ref dataAddr)
    .ok (applyPatchOld h₁ dataAddr changed (f snap))

/-- The `get` handler of `setupDataForPassingToComponents` read over
heap-valued store data: on an entitled field it returns the live stored
value itself — for a composite value, the very reference held by
`state.data`, with no clone in between. -/
def setupDataGetHeap (fields accesses : List String)
    (d : List (String × JSVal)) (f : String) : Except String JSVal :=
  if f ∈ fields ++ accesses then .ok (lookupEntries d f)
  else .error (unsubscribedMsg f)

/-!
Concrete scenarios used by the claims that evaluate the code at a
specific failing input.
-/

/-- A hook that does nothing. -/
def hookNoop : Hook := fun _ => []

/-- Scenario data for the mid-tick write claims: entry A is subscribed to
`x` and its update hook calls `setData({x: 99})`. -/
def entAWrites : Entry :=
  { mount := hookNoop, mountAndUpdate := none
    update := some (fun _ => [[("x", .num 99)]])
    fields := ["x"], accesses := [] }

/-- Entry B, registered after A, subscribed to the same field `x`; its
update hook only reads. -/
def entBReads : Entry :=
  { mount := hookNoop, mountAndUpdate := none
    update := some hookNoop
    fields := ["x"], accesses := [] }

/-- Registration for the sibling-snapshot scenario. -/
def regSibling : List (Nat × Entry) := [(0, entAWrites), (1, entBReads)]

/-- Store at tick start for the sibling-snapshot scenario: `x` is `0` and
dirty. -/
def stSibling : StoreState := { data := [("x", .num 0)], changed := ["x"] }

/-- Claim C2 (status code_bug): the source comment asserts that the data
passed to each component is unaffected by mid-tick `setData` calls
because the snapshots are copies, but in `src/index.js` the snapshot is a
lazy Proxy over the live `state.data` and nothing is cloned.  In a tick
that starts with `x = 0` dirty, the update hook of entry A writes
`x := 99`,
and the sibling entry B — updated later in the same tick — observes
`x = 99` through its snapshot instead of the tick-start value `0`. -/
theorem c2_sibling_observes_midtick_write :
    lookupField stSibling.data "x" = .num 0 ∧
    (tick regSibling stSibling).2 =
      [⟨0, .update, [("x", .num 0)]⟩, ⟨1, .update, [("x", .num 99)]⟩] := by
  exact ⟨rfl, rfl⟩

/-- Entry whose update hook calls `setData({y: 1})`; subscribed to `x`. -/
def entWritesY : Entry :=
  { mount := hookNoop, mountAndUpdate := none
    update := some (fun _ => [[("y", .num 1)]])
    fields := ["x"], accesses := [] }

/-- Entry subscribed to `y` only. -/
def entSubY : Entry :=
  { mount := hookNoop, mountAndUpdate := none
    update := some hookNoop
    fields := ["y"], accesses := [] }

/-- Registration for the lost-dirty-field scenario. -/
def regLost : List (Nat × Entry) := [(0, entWritesY), (1, entSubY)]

/-- Store at tick start for the lost-dirty-field scenario. -/
def stLost : StoreState :=
  { data := [("x", .num 0), ("y", .num 0)], changed := ["x"] }

/-- Claim C3 (status code_bug): the tick callback runs all update hooks
and only afterwards executes `this.changedFields = new Set()`, so a field
marked dirty by a `setData` call made from inside a hook during the tick
is wiped together with the fields that triggered the tick.  Here the
update hook of the `x`-subscriber sets `y := 1`; after the tick the
change set is empty even though `y` was marked, the stored `y` is `1`,
and no later tick ever runs the `y`-subscriber: the change is silently
lost instead of being observed starting the next tick. -/
theorem c3_midtick_dirty_silently_lost :
    (tick regLost stLost).1.changed = [] ∧
    lookupField (tick regLost stLost).1.data "y" = .num 1 ∧
    (ticks 5 regLost (tick regLost stLost).1).2 = [] := by
  exact ⟨rfl, rfl, rfl⟩

/-- Entry with both a `mount` and a `mountAndUpdate` hook. -/
def entBothMountHooks : Entry :=
  { mount := hookNoop, mountAndUpdate := some hookNoop, update := none
    fields := [], accesses := [] }

/-- Claim C4, counterexample: in the mount phase of `src/index.js` the
scheduler calls `component.mount({data})` first and
`component.mountAndUpdate({data})` second, not the other way around as
the claim states. -/
theorem c4_counterexample :
    (mountPhase [(0, entBothMountHooks)] ⟨[], []⟩).2.map
        (fun ev => (ev.idx, ev.kind))
      = [(0, HookKind.mount), (0, HookKind.mountAndUpdate)] ∧
    ([(0, HookKind.mount), (0, HookKind.mountAndUpdate)] : List (Nat × HookKind))
      ≠ [(0, HookKind.mountAndUpdate), (0, HookKind.mount)] := by
  exact ⟨rfl, by decide⟩

/-- Heap for the snapshot-aliasing scenario: the store field
`codeExamples` holds a reference to the single object cell. -/
def heapAlias : Heap := [Cell.objC [("default", .prim (.str "original"))]]

/-- Store data for the snapshot-aliasing scenario. -/
def dataAlias : List (String × JSVal) := [("codeExamples", .ref 0)]

/-- Claim C1 (status code_bug): `setupDataForPassingToComponents` in
`src/index.js` returns the live stored value from its `get` handler —
`cloneDeep` is defined in the file but never called — so the snapshot
aliases central state.  Reading the entitled field `codeExamples` yields
the very reference held by `state.data`, and an in-place mutation of the
referenced cell (for example through `data.codeExamples.default = ...`)
changes the structural value of the central store field. -/
theorem c1_snapshot_aliases_live_state :
    setupDataGetHeap ["codeExamples"] [] dataAlias "codeExamples"
      = .ok (.ref 0) ∧
    lookupEntries dataAlias "codeExamples" = .ref 0 ∧
    equivVal 5 heapAlias (.ref 0) heapAlias (.ref 0) = true ∧
    equivVal 5 heapAlias (.ref 0)
      (heapAlias.set 0 (Cell.objC [("default", .prim (.str "mutated"))]))
      (.ref 0) = false := by
  exact ⟨rfl, rfl, by decide, by decide⟩

/-- Heap for the old `setData(fn)` scenario: the store data object holds
one scalar field. -/
def heapOldStore : Heap := [Cell.objC [("code", .prim (.str "x"))]]

/-- Claim C5 (status code_bug): in `src/old_view_code.js`, `setData` with
a function argument computes `obj(cloneDeep(this.data))`, but that
file's `cloneDeep` is missing the `return` statement of its object
branch, so it evaluates to `undefined` on any plain object.  The updater
function therefore receives `undefined` instead of a deep-cloned
snapshot of the current state; storing the received argument into a
`probe` field exhibits this.  (`src/index.js` dropped the function
variant altogether: its `setData` only iterates the keys of its
argument.) -/
theorem c5_fn_patch_receives_undefined :
    cloneDeepOld 10 heapOldStore (.ref 0) = .ok (heapOldStore, .prim .undef) ∧
    setDataOld 10 heapOldStore 0 [] (.fn (fun v => [("probe", v)]))
      = .ok ([Cell.objC [("code", .prim (.str "x")),
                         ("probe", .prim .undef)]], ["probe"]) := by
  exact ⟨rfl, rfl⟩

/-- Claim C6, counterexample: a well-formed mapping that contains the key
`length` is sent into the array branch by the `hasOwnProperty` dispatch
of `cloneDeep`, where iterating a non-iterable plain object throws: for
this in-contract value the clone utility produces no structurally equal
copy at all. -/
theorem c6_counterexample :
    heapWF [Cell.objC [("length", .prim (.num 0))]] = true ∧
    cloneDeep 10 [Cell.objC [("length", .prim (.num 0))]] (.ref 0)
      = .error .notIterable := by
  exact ⟨by decide, rfl⟩

/-!
Lemmas about the store and the registry.
-/

/-- Reading a field after writing one: the written field reads back the
new value, all other fields are untouched. -/
theorem lookupField_setField (d : StoreData) (f : String) (v : Value)
    (g : String) :
    lookupField (setField d f v) g = if g = f then v else lookupField d g := by
  induction d with
  | nil =>
    simp only [setField, lookupField]
    split_ifs <;> first | rfl | (exfalso; simp_all)
  | cons kv rest ih =>
    obtain ⟨k, w⟩ := kv
    by_cases hkf : k = f
    · subst hkf
      simp only [setField, if_pos rfl, lookupField]
      clear ih
      split_ifs <;> first | rfl | (exfalso; simp_all)
    · simp only [setField, if_neg hkf, lookupField, ih]
      clear ih
      split_ifs <;> first | rfl | (exfalso; simp_all)

/-- The field just added to the change set is in the change set. -/
theorem mem_addChanged_self (cs : List String) (f : String) :
    f ∈ addChanged cs f := by
  unfold addChanged
  by_cases hf : f ∈ cs <;> simp [hf]

/-- Insertion into the change set keeps previous members. -/
theorem mem_addChanged_of_mem (cs : List String) (f g : String)
    (hg : g ∈ cs) : g ∈ addChanged cs f := by
  unfold addChanged
  by_cases hf : f ∈ cs <;> simp [hf, hg]

/-- Unfolding of `setData` on a one-field patch. -/
theorem setData_singleton (st : StoreState) (f : String) (v : Value) :
    setData st [(f, v)] =
      { data := setField st.data f v, changed := addChanged st.changed f } := rfl

/-- A field that was never set reads as `undefined`. -/
theorem lookupField_eq_undef_of_not_mem (d : StoreData) (f : String)
    (habs : f ∉ d.map Prod.fst) : lookupField d f = .undef := by
  induction d with
  | nil => rfl
  | cons kv rest ih =>
    obtain ⟨k, w⟩ := kv
    simp only [List.map_cons, List.mem_cons] at habs
    push_neg at habs
    have hkf : ¬ k = f := fun h => habs.1 h.symm
    simp only [lookupField, if_neg hkf]
    exact ih habs.2

/-- The break-on-first-hit scan of the subscribed fields decides exactly
whether some subscribed field is in the change set. -/
theorem scanFields_eq (fs changed : List String) :
    scanFields fs changed = decide (∃ g ∈ fs, g ∈ changed) := by
  induction fs with
  | nil => simp [scanFields]
  | cons f fs ih =>
    by_cases hf : f ∈ changed <;> simp [scanFields, hf, ih]

/-- The collection loop of the tick callback is the registration-order
filter of the entries having a dirty subscribed field. -/
theorem collectToUpdate_eq_filter (reg : List (Nat × Entry))
    (changed : List String) :
    collectToUpdate reg changed
      = reg.filter (fun ie => decide (∃ g ∈ ie.2.fields, g ∈ changed)) := by
  induction reg with
  | nil => rfl
  | cons ie rest ih =>
    simp only [collectToUpdate, scanFields_eq, List.filter_cons]
    by_cases h : ∃ g ∈ ie.2.fields, g ∈ changed <;> simp [h, ih]

/-- A registered entry with a dirty subscribed field is collected. -/
theorem mem_collectToUpdate (reg : List (Nat × Entry)) (changed : List String)
    (ie : Nat × Entry) (f : String) (hreg : ie ∈ reg)
    (hf : f ∈ ie.2.fields) (hc : f ∈ changed) :
    ie ∈ collectToUpdate reg changed := by
  rw [collectToUpdate_eq_filter]
  exact List.mem_filter.mpr ⟨hreg, by simp; exact ⟨f, hf, hc⟩⟩

/-- Claim C8 (status confirmed): through the data Proxy of
`setupDataForPassingToComponents`, reading a field in the entitlement
list returns the stored value; reading any other field throws an error
whose message embeds the field name (never a silent `undefined`); and
every write attempt throws the must-mutate-through-setData error without
modifying anything. -/
theorem c8_guard_read_write (fields accesses : List String) (d : StoreData)
    (f : String) (v : Value) :
    (f ∈ fields ++ accesses →
      setupDataGet fields accesses d f = .ok (lookupField d f)) ∧
    (f ∉ fields ++ accesses →
      setupDataGet fields accesses d f = .error (unsubscribedMsg f) ∧
      ∃ pre post, unsubscribedMsg f = pre ++ f ++ post) ∧
    setupDataSet d f v = .error mustUseSetDataMsg := by
  refine ⟨fun h => ?_, fun h => ⟨?_, ?_⟩, rfl⟩
  · simp [setupDataGet, h]
  · simp [setupDataGet, h]
  · exact ⟨"you are not subscribed to the field ",
      ", please subscribe (or place it in accesses) before attempting to access it",
      rfl⟩

/-- Witness for C8 at concrete inputs: field `x` is entitled and reads
its value, field `y` is not and the read throws, and a write throws. -/
theorem c8_guard_read_write_witness :
    setupDataGet ["x"] [] [("x", .num 1)] "x" = .ok (.num 1) ∧
    setupDataGet ["x"] [] [("x", .num 1)] "y" = .error (unsubscribedMsg "y") ∧
    setupDataSet [("x", .num 1)] "y" (.num 2) = .error mustUseSetDataMsg :=
  ⟨(c8_guard_read_write ["x"] [] [("x", .num 1)] "x" (.num 1)).1 (by decide),
   ((c8_guard_read_write ["x"] [] [("x", .num 1)] "y" (.num 2)).2.1 (by decide)).1,
   (c8_guard_read_write ["x"] [] [("x", .num 1)] "y" (.num 2)).2.2⟩

/-- Claim C10 (status confirmed): the Proxy `get` handler checks
membership in the declared entitlement list only, never existence in the
state mapping; reading an entitled field that was never set succeeds and
yields `undefined`. -/
theorem c10_declared_but_unset_reads_undefined (fields accesses : List String)
    (d : StoreData) (f : String) (hf : f ∈ fields ++ accesses)
    (habs : f ∉ d.map Prod.fst) :
    setupDataGet fields accesses d f = .ok .undef := by
  simp [setupDataGet, hf, lookupField_eq_undef_of_not_mem d f habs]

/-- Witness for C10: the entitled field `z` is absent from the state
mapping and reads as `undefined` without an error. -/
theorem c10_declared_but_unset_reads_undefined_witness :
    setupDataGet ["z"] [] [("x", .num 1)] "z" = .ok .undef :=
  c10_declared_but_unset_reads_undefined ["z"] [] [("x", .num 1)] "z"
    (by decide) (by decide)

/-- Claim C9 (status confirmed): `setData` adds every patched field to
the change set without comparing values: writing the very value a field
already holds leaves every read of the store unchanged, yet still marks
the field dirty, so every registered subscriber of the field is collected
on the next tick. -/
theorem c9_identical_write_still_marks_dirty (st : StoreState) (f : String)
    (reg : List (Nat × Entry)) (ie : Nat × Entry)
    (hreg : ie ∈ reg) (hf : f ∈ ie.2.fields) :
    f ∈ (setData st [(f, lookupField st.data f)]).changed ∧
    (∀ g, lookupField (setData st [(f, lookupField st.data f)]).data g
      = lookupField st.data g) ∧
    ie ∈ collectToUpdate reg (setData st [(f, lookupField st.data f)]).changed := by
  refine ⟨?_, fun g => ?_, ?_⟩
  · rw [setData_singleton]
    exact mem_addChanged_self st.changed f
  · rw [setData_singleton]
    simp only [lookupField_setField]
    by_cases hgf : g = f <;> simp [hgf]
  · refine mem_collectToUpdate reg _ ie f hreg hf ?_
    rw [setData_singleton]
    exact mem_addChanged_self st.changed f

/-- Witness for C9: rewriting `x` with its current value `1` marks `x`
dirty and collects its subscriber. -/
theorem c9_identical_write_still_marks_dirty_witness :
    "x" ∈ (setData ⟨[("x", .num 1)], []⟩
      [("x", lookupField [("x", .num 1)] "x")]).changed ∧
    (0, entBReads) ∈ collectToUpdate [(0, entBReads)]
      (setData ⟨[("x", .num 1)], []⟩
        [("x", lookupField [("x", .num 1)] "x")]).changed :=
  ⟨(c9_identical_write_still_marks_dirty ⟨[("x", .num 1)], []⟩ "x"
      [(0, entBReads)] (0, entBReads) (by simp) (by decide)).1,
   (c9_identical_write_still_marks_dirty ⟨[("x", .num 1)], []⟩ "x"
      [(0, entBReads)] (0, entBReads) (by simp) (by decide)).2.2⟩

/-!
Trace lemmas for the scheduler.
-/

/-- Projection of a trace event to its registration index and hook kind. -/
def eventSig (ev : Event) : Nat × HookKind := (ev.idx, ev.kind)

/-- The trace signature of an optional hook invocation. -/
theorem runOptHook_trace (st : StoreState) (i : Nat) (k : HookKind)
    (ent : List String) (oh : Option Hook) :
    ((runOptHook st i k ent oh).2).map eventSig
      = if oh.isSome then [(i, k)] else [] := by
  cases oh <;> simp [runOptHook, eventSig]

/-- Hook kinds appearing in an optional hook invocation. -/
theorem runOptHook_kind (st : StoreState) (i : Nat) (k : HookKind)
    (ent : List String) (oh : Option Hook) (ev : Event)
    (hev : ev ∈ (runOptHook st i k ent oh).2) : ev.kind = k := by
  cases oh with
  | none => simp [runOptHook] at hev
  | some hk =>
    simp only [runOptHook, List.mem_singleton] at hev
    subst hev
    rfl

/-- The batched update loop produces, per collected entry in order, one
`mountAndUpdate` event when that hook is present followed by one
`update` event when that hook is present. -/
theorem updateAll_trace (l : List (Nat × Entry)) :
    ∀ st : StoreState, ((updateAll l st).2).map eventSig
      = l.flatMap (fun ie =>
          (if ie.2.mountAndUpdate.isSome
            then [(ie.1, HookKind.mountAndUpdate)] else [])
          ++ (if ie.2.update.isSome then [(ie.1, HookKind.update)] else [])) := by
  induction l with
  | nil => intro st; rfl
  | cons ie rest ih =>
    intro st
    simp only [updateAll, updateStep, List.flatMap_cons, List.map_append,
      runOptHook_trace, ih]

/-- The mount loop produces, per registered entry in registration order,
one `mount` event followed by one `mountAndUpdate` event when that hook
is present. -/
theorem mountPhase_trace (reg : List (Nat × Entry)) :
    ∀ st : StoreState, ((mountPhase reg st).2).map eventSig
      = reg.flatMap (fun ie =>
          (ie.1, HookKind.mount) ::
            (if ie.2.mountAndUpdate.isSome
              then [(ie.1, HookKind.mountAndUpdate)] else [])) := by
  induction reg with
  | nil => intro st; rfl
  | cons ie rest ih =>
    intro st
    simp only [mountPhase, mountStep, List.flatMap_cons, List.map_cons,
      List.map_append, runOptHook_trace, ih, eventSig]

/-- Every event of the mount loop is a `mount` or `mountAndUpdate`
event. -/
theorem mountPhase_kind (reg : List (Nat × Entry)) :
    ∀ (st : StoreState) (ev : Event), ev ∈ (mountPhase reg st).2 →
      ev.kind = HookKind.mount ∨ ev.kind = HookKind.mountAndUpdate := by
  induction reg with
  | nil => intro st ev hev; simp [mountPhase] at hev
  | cons ie rest ih =>
    intro st ev hev
    simp only [mountPhase, mountStep, List.mem_append, List.mem_cons] at hev
    rcases hev with (hev | hev) | hev
    · subst hev; exact .inl rfl
    · exact .inr (runOptHook_kind _ _ _ _ _ _ hev)
    · exact ih _ _ hev

/-- Every event of the batched update loop is a `mountAndUpdate` or
`update` event. -/
theorem updateAll_kind (l : List (Nat × Entry)) :
    ∀ (st : StoreState) (ev : Event), ev ∈ (updateAll l st).2 →
      ev.kind = HookKind.mountAndUpdate ∨ ev.kind = HookKind.update := by
  induction l with
  | nil => intro st ev hev; simp [updateAll] at hev
  | cons ie rest ih =>
    intro st ev hev
    simp only [updateAll, updateStep, List.mem_append] at hev
    rcases hev with (hev | hev) | hev
    · exact .inl (runOptHook_kind _ _ _ _ _ _ hev)
    · exact .inr (runOptHook_kind _ _ _ _ _ _ hev)
    · exact ih _ _ hev

/-- Ticks never produce a `mount` event. -/
theorem ticks_kind (n : Nat) (reg : List (Nat × Entry)) :
    ∀ (st : StoreState) (ev : Event), ev ∈ (ticks n reg st).2 →
      ev.kind = HookKind.mountAndUpdate ∨ ev.kind = HookKind.update := by
  induction n with
  | zero => intro st ev hev; simp [ticks] at hev
  | succ n ih =>
    intro st ev hev
    simp only [ticks, List.mem_append] at hev
    rcases hev with hev | hev
    · unfold tick at hev
      by_cases hch : st.changed = []
      · simp [hch] at hev
      · simp only [if_neg hch] at hev
        exact updateAll_kind _ _ _ hev
    · exact ih _ _ hev

/-- Claim C4 as amended (status corrected): during the mount phase the
scheduler walks the registered entries in registration order and, for
each, builds the snapshot over its entitlement list and invokes `mount`
first and then `mountAndUpdate` when present (the claim stated the
opposite hook order); every registered entry gets exactly one `mount`
event, the mount phase contains no `update` event, ticks contain no
`mount` event, and a full run is the mount-phase trace followed by the
tick traces — so every mount precedes every update call. -/
theorem c4_mount_phase_order (reg : List (Nat × Entry)) (st : StoreState)
    (n : Nat) :
    ((mountPhase reg st).2).map eventSig
      = reg.flatMap (fun ie =>
          (ie.1, HookKind.mount) ::
            (if ie.2.mountAndUpdate.isSome
              then [(ie.1, HookKind.mountAndUpdate)] else [])) ∧
    (mountPhase reg st).2.filter (fun ev => ev.kind == HookKind.update) = [] ∧
    (ticks n reg st).2.filter (fun ev => ev.kind == HookKind.mount) = [] ∧
    (runApp reg st n).2
      = (mountPhase reg st).2 ++ (ticks n reg (mountPhase reg st).1).2 := by
  refine ⟨mountPhase_trace reg st, ?_, ?_, rfl⟩
  · refine List.filter_eq_nil_iff.mpr ?_
    intro ev hev
    rcases mountPhase_kind reg st ev hev with h | h <;> simp [h]
  · refine List.filter_eq_nil_iff.mpr ?_
    intro ev hev
    rcases ticks_kind n reg st ev hev with h | h <;> simp [h]

/-- Claim C7 (status confirmed): on a tick with a non-empty change set,
the collected entries are exactly the registration-order filter of the
entries having at least one subscribed field dirty (accessed-only fields
never trigger, and an entry appears once however many of its subscribed
fields are dirty); two `setData` calls on the same field before the tick
leave the last-written value in the store and the field marked once; and
the tick trace runs, per collected entry in order, `mountAndUpdate` and
`update` once each when present. -/
theorem c7_update_once_per_affected_entry (reg : List (Nat × Entry))
    (st : StoreState) (changed : List String) (f : String) (v₁ v₂ : Value)
    (hne : st.changed ≠ []) :
    collectToUpdate reg changed
      = reg.filter (fun ie => decide (∃ g ∈ ie.2.fields, g ∈ changed)) ∧
    lookupField (setData (setData st [(f, v₁)]) [(f, v₂)]).data f = v₂ ∧
    f ∈ (setData (setData st [(f, v₁)]) [(f, v₂)]).changed ∧
    ((tick reg st).2).map eventSig
      = (collectToUpdate reg st.changed).flatMap (fun ie =>
          (if ie.2.mountAndUpdate.isSome
            then [(ie.1, HookKind.mountAndUpdate)] else [])
          ++ (if ie.2.update.isSome then [(ie.1, HookKind.update)] else [])) := by
  refine ⟨collectToUpdate_eq_filter reg changed, ?_, ?_, ?_⟩
  · simp [setData_singleton, lookupField_setField]
  · simp only [setData_singleton]
    exact mem_addChanged_self _ f
  · simp only [tick, if_neg hne]
    exact updateAll_trace _ st

/-- Witness for C7 at a concrete input: one entry subscribed to `x` with
an update hook, one subscribed to `y`; with only `x` dirty the tick runs
exactly the first entry's update hook once. -/
theorem c7_update_once_per_affected_entry_witness :
    ((tick [(0, entAWrites), (1, entSubY)] ⟨[("x", .num 0)], ["x"]⟩).2).map
        eventSig
      = (collectToUpdate [(0, entAWrites), (1, entSubY)] ["x"]).flatMap
          (fun ie =>
            (if ie.2.mountAndUpdate.isSome
              then [(ie.1, HookKind.mountAndUpdate)] else [])
            ++ (if ie.2.update.isSome
              then [(ie.1, HookKind.update)] else [])) :=
  (c7_update_once_per_affected_entry [(0, entAWrites), (1, entSubY)]
    ⟨[("x", .num 0)], ["x"]⟩ ["x"] "x" (.num 1) (.num 2) (by decide)).2.2.2

/-!
Well-formedness and agreement machinery for the heap model.
-/

/-- Every cell at an address below `n` references only lower addresses. -/
def WFBelow (n : Nat) (h : Heap) : Prop :=
  ∀ i c, i < n → h[i]? = some c → cellBelow c i = true

/-- Two heaps agree on all addresses below `n`. -/
def agreeBelow (n : Nat) (h₁ h₂ : Heap) : Prop :=
  ∀ a, a < n → h₁[a]? = h₂[a]?

/-- A root value living at-or-above an address bound (freshness of a
clone root). -/
def rootGE : JSVal → Nat → Bool
  | .prim _, _ => true
  | .ref a, n => decide (n ≤ a)

/-- A value bound is monotone. -/
theorem valBelow_mono (v : JSVal) (m n : Nat) (hv : valBelow v m = true)
    (hmn : m ≤ n) : valBelow v n = true := by
  cases v with
  | prim p => rfl
  | ref a =>
    simp only [valBelow, decide_eq_true_eq] at hv ⊢
    omega

/-- Zipping a list with itself pairs every element with itself. -/
theorem list_zip_self {α : Type} (l : List α) :
    l.zip l = l.map (fun x => (x, x)) := by
  induction l with
  | nil => rfl
  | cons x xs ih => simp [List.zip_cons_cons, ih]

/-- Pointwise equal predicates give equal `all` results. -/
theorem list_all_congr {α : Type} (l : List α) (f g : α → Bool)
    (h : ∀ x ∈ l, f x = g x) : l.all f = l.all g := by
  induction l with
  | nil => rfl
  | cons x xs ih =>
    simp only [List.all_cons, h x (by simp)]
    rw [ih (fun y hy => h y (by simp [hy]))]

/-- Restriction of `WFBelow` to a smaller bound. -/
theorem WFBelow_mono (m n : Nat) (h : Heap) (hmn : m ≤ n)
    (hwf : WFBelow n h) : WFBelow m h :=
  fun i c hi hc => hwf i c (lt_of_lt_of_le hi hmn) hc

/-- Restriction of `agreeBelow` to a smaller bound. -/
theorem agreeBelow_mono (m n : Nat) (h₁ h₂ : Heap) (hmn : m ≤ n)
    (hag : agreeBelow n h₁ h₂) : agreeBelow m h₁ h₂ :=
  fun a ha => hag a (lt_of_lt_of_le ha hmn)

/-- A heap agrees with itself everywhere. -/
theorem agreeBelow_refl (n : Nat) (h : Heap) : agreeBelow n h h :=
  fun _ _ => rfl

/-- Agreement is symmetric. -/
theorem agreeBelow_symm (n : Nat) (h₁ h₂ : Heap)
    (hag : agreeBelow n h₁ h₂) : agreeBelow n h₂ h₁ :=
  fun a ha => (hag a ha).symm

/-- Appending cells does not change the existing region. -/
theorem agreeBelow_append (h ext : Heap) : agreeBelow h.length h (h ++ ext) :=
  fun _a ha => (List.getElem?_append_left ha).symm

/-- Overwriting a cell at-or-above the bound does not change the region
below it. -/
theorem agreeBelow_set_ge (h : Heap) (a : Nat) (c : Cell) (n : Nat)
    (hna : n ≤ a) : agreeBelow n h (h.set a c) :=
  fun i hi => (List.getElem?_set_ne (show a ≠ i by omega)).symm

/-- Transport of `WFBelow` along agreement. -/
theorem WFBelow_of_agree (n : Nat) (h h' : Heap)
    (hag : agreeBelow n h h') (hwf : WFBelow n h) : WFBelow n h' :=
  fun i c hi hc => hwf i c hi ((hag i hi).trans hc)

/-- Unfolding of the well-formedness scan: each cell is bounded by its
own address. -/
theorem heapWFAux_getElem (h : Heap) : ∀ n : Nat, heapWFAux n h = true →
    ∀ i c, h[i]? = some c → cellBelow c (n + i) = true := by
  induction h with
  | nil => intro n _ i c hc; simp at hc
  | cons d ds ih =>
    intro n hwf i c hc
    simp only [heapWFAux, Bool.and_eq_true] at hwf
    cases i with
    | zero =>
      simp only [List.getElem?_cons_zero, Option.some.injEq] at hc
      subst hc
      simpa using hwf.1
    | succ i =>
      simp only [List.getElem?_cons_succ] at hc
      have := ih (n+1) hwf.2 i c hc
      rwa [show n + 1 + i = n + (i + 1) by omega] at this

/-- A well-formed heap satisfies `WFBelow` at its length. -/
theorem WFBelow_of_heapWF (h : Heap) (hwf : heapWF h = true) :
    WFBelow h.length h := by
  intro i c _ hc
  have := heapWFAux_getElem h 0 hwf i c hc
  simpa using this

/-- The well-formedness scan distributes over append. -/
theorem heapWFAux_append (h₁ h₂ : Heap) : ∀ n : Nat,
    heapWFAux n (h₁ ++ h₂)
      = (heapWFAux n h₁ && heapWFAux (n + h₁.length) h₂) := by
  induction h₁ with
  | nil => intro n; simp [heapWFAux]
  | cons c cs ih =>
    intro n
    simp only [List.cons_append, heapWFAux, List.append_eq, List.length_cons]
    rw [ih (n+1), show n + 1 + cs.length = n + (cs.length + 1) by omega,
      Bool.and_assoc]

/-- Allocating one cell whose references stay inside the old heap
preserves well-formedness. -/
theorem heapWF_append_single (h : Heap) (c : Cell) (hwf : heapWF h = true)
    (hc : cellBelow c h.length = true) : heapWF (h ++ [c]) = true := by
  unfold heapWF at hwf ⊢
  rw [heapWFAux_append]
  simp [heapWFAux, hwf, hc]

/-- Structural equality only inspects heap cells reachable below the
given bounds: replacing either heap by one that agrees below its bound
leaves the comparison unchanged. -/
theorem equivVal_congr (g : Nat) :
    ∀ (hA hA' hB hB' : Heap) (v w : JSVal) (nA nB : Nat),
      WFBelow nA hA → agreeBelow nA hA hA' → valBelow v nA = true →
      WFBelow nB hB → agreeBelow nB hB hB' → valBelow w nB = true →
      equivVal g hA v hB w = equivVal g hA' v hB' w := by
  induction g with
  | zero => intros; rfl
  | succ g ih =>
    intro hA hA' hB hB' v w nA nB hwfA hagA hv hwfB hagB hw
    cases v with
    | prim p => cases w <;> rfl
    | ref a =>
      cases w with
      | prim q => rfl
      | ref b =>
        have ha : a < nA := by simpa [valBelow] using hv
        have hb : b < nB := by simpa [valBelow] using hw
        have hAeq : hA[a]? = hA'[a]? := hagA a ha
        have hBeq : hB[b]? = hB'[b]? := hagB b hb
        simp only [equivVal]
        rw [← hAeq, ← hBeq]
        cases hcA : hA[a]? with
        | none => rfl
        | some cA =>
          cases hcB : hB[b]? with
          | none => cases cA <;> rfl
          | some cB =>
            have hcbA : cellBelow cA a = true := hwfA a cA ha hcA
            have hcbB : cellBelow cB b = true := hwfB b cB hb hcB
            cases cA with
            | arrC es =>
              cases cB with
              | objC kvs => rfl
              | arrC fs =>
                simp only [cellBelow, List.all_eq_true] at hcbA hcbB
                dsimp only
                congr 1
                refine list_all_congr _ _ _ ?_
                intro p hp
                exact ih hA hA' hB hB' p.1 p.2 a b
                  (WFBelow_mono a nA hA (le_of_lt ha) hwfA)
                  (agreeBelow_mono a nA hA hA' (le_of_lt ha) hagA)
                  (hcbA p.1 (List.of_mem_zip hp).1)
                  (WFBelow_mono b nB hB (le_of_lt hb) hwfB)
                  (agreeBelow_mono b nB hB hB' (le_of_lt hb) hagB)
                  (hcbB p.2 (List.of_mem_zip hp).2)
            | objC kvs =>
              cases cB with
              | arrC fs => rfl
              | objC lws =>
                simp only [cellBelow, List.all_eq_true] at hcbA hcbB
                dsimp only
                congr 1
                refine list_all_congr _ _ _ ?_
                intro p hp
                congr 1
                exact ih hA hA' hB hB' p.1.2 p.2.2 a b
                  (WFBelow_mono a nA hA (le_of_lt ha) hwfA)
                  (agreeBelow_mono a nA hA hA' (le_of_lt ha) hagA)
                  (hcbA p.1 (List.of_mem_zip hp).1)
                  (WFBelow_mono b nB hB (le_of_lt hb) hwfB)
                  (agreeBelow_mono b nB hB hB' (le_of_lt hb) hagB)
                  (hcbB p.2 (List.of_mem_zip hp).2)

/-- A value compared with itself across two heaps that agree below the
bound of its reachable region is structurally equal to itself, given
enough fuel (one unit per address level). -/
theorem equivVal_diag (g : Nat) :
    ∀ (h₁ h₂ : Heap) (v : JSVal) (n : Nat),
      WFBelow n h₁ → agreeBelow n h₁ h₂ → valBelow v n = true →
      n ≤ h₁.length → n < g →
      equivVal g h₁ v h₂ v = true := by
  induction g with
  | zero => intro _ _ _ n _ _ _ _ hg; omega
  | succ g ih =>
    intro h₁ h₂ v n hwf hag hv hn hg
    cases v with
    | prim p => simp [equivVal]
    | ref a =>
      have ha : a < n := by simpa [valBelow] using hv
      have haL : a < h₁.length := lt_of_lt_of_le ha hn
      have hc : h₁[a]? = some h₁[a] := List.getElem?_eq_getElem haL
      have hc₂ : h₂[a]? = some h₁[a] := (hag a ha).symm.trans hc
      have hcb : cellBelow h₁[a] a = true := hwf a h₁[a] ha hc
      simp only [equivVal, hc, hc₂]
      cases hcell : h₁[a] with
      | arrC es =>
        rw [hcell] at hcb
        simp only [cellBelow, List.all_eq_true] at hcb
        dsimp only
        refine (Bool.and_eq_true _ _).mpr ⟨by simp, ?_⟩
        rw [list_zip_self]
        refine List.all_eq_true.mpr ?_
        intro p hp
        obtain ⟨e, he, rfl⟩ := List.mem_map.mp hp
        exact ih h₁ h₂ e a
          (WFBelow_mono a n h₁ (le_of_lt ha) hwf)
          (agreeBelow_mono a n h₁ h₂ (le_of_lt ha) hag)
          (hcb e he) (le_of_lt haL) (by omega)
      | objC kvs =>
        rw [hcell] at hcb
        simp only [cellBelow, List.all_eq_true] at hcb
        dsimp only
        refine (Bool.and_eq_true _ _).mpr ⟨by simp, ?_⟩
        rw [list_zip_self]
        refine List.all_eq_true.mpr ?_
        intro p hp
        obtain ⟨kv, hkv, rfl⟩ := List.mem_map.mp hp
        refine (Bool.and_eq_true _ _).mpr ⟨by simp, ?_⟩
        exact ih h₁ h₂ kv.2 a
          (WFBelow_mono a n h₁ (le_of_lt ha) hwf)
          (agreeBelow_mono a n h₁ h₂ (le_of_lt ha) hag)
          (hcb kv hkv) (le_of_lt haL) (by omega)

/-- Soundness of the three clone interpreters of `src/index.js`, by
induction on fuel: a successful clone only appends fresh cells to the
heap, preserves well-formedness, returns a value living inside the new
heap whose root is in the fresh region, and is structurally equal to its
source at every sufficient fuel. -/
theorem clone_sound (fuel : Nat) :
    (∀ h v h' v' b, cloneDeep fuel h v = .ok (h', v') → heapWF h = true →
      b ≤ h.length → valBelow v b = true →
      (∃ ext, h' = h ++ ext) ∧ heapWF h' = true ∧
      valBelow v' h'.length = true ∧ rootGE v' h.length = true ∧
      (∀ g, b < g → equivVal g h' v' h v = true)) ∧
    (∀ h es h' es' b, cloneMany fuel h es = .ok (h', es') → heapWF h = true →
      b ≤ h.length → es.all (fun e => valBelow e b) = true →
      (∃ ext, h' = h ++ ext) ∧ heapWF h' = true ∧
      es'.length = es.length ∧
      es'.all (fun e => valBelow e h'.length) = true ∧
      (∀ g, b < g →
        (es'.zip es).all (fun p => equivVal g h' p.1 h p.2) = true)) ∧
    (∀ h kvs h' kvs' b, cloneEntries fuel h kvs = .ok (h', kvs') →
      heapWF h = true → b ≤ h.length →
      kvs.all (fun kv => valBelow kv.2 b) = true →
      (∃ ext, h' = h ++ ext) ∧ heapWF h' = true ∧
      kvs'.length = kvs.length ∧
      kvs'.all (fun kv => valBelow kv.2 h'.length) = true ∧
      (∀ g, b < g →
        (kvs'.zip kvs).all
          (fun p => p.1.1 == p.2.1 && equivVal g h' p.1.2 h p.2.2) = true)) := by
  induction fuel with
  | zero =>
    refine ⟨?_, ?_, ?_⟩
    · intro h v h' v' b hcl
      simp [cloneDeep] at hcl
    · intro h es h' es' b hcl
      simp [cloneMany] at hcl
    · intro h kvs h' kvs' b hcl
      simp [cloneEntries] at hcl
  | succ fuel ih =>
    obtain ⟨ihV, ihL, ihE⟩ := ih
    refine ⟨?_, ?_, ?_⟩
    -- cloneDeep
    · intro h v h' v' b hcl hwf hb hv
      cases v with
      | prim p =>
        simp only [cloneDeep, Except.ok.injEq, Prod.mk.injEq] at hcl
        obtain ⟨rfl, rfl⟩ := hcl
        refine ⟨⟨[], by simp⟩, hwf, rfl, rfl, ?_⟩
        intro g hg
        cases g with
        | zero => omega
        | succ g => simp [equivVal]
      | ref a =>
        have ha : a < b := by simpa [valBelow] using hv
        have haL : a < h.length := lt_of_lt_of_le ha hb
        have hc : h[a]? = some h[a] := List.getElem?_eq_getElem haL
        have hcb : cellBelow h[a] a = true :=
          WFBelow_of_heapWF h hwf a h[a] haL hc
        cases hcell : h[a] with
        | arrC es =>
          rw [hcell] at hc hcb
          simp only [cellBelow] at hcb
          simp only [cloneDeep, hc, bind, Except.bind] at hcl
          cases hlm : cloneMany fuel h es with
          | error err => rw [hlm] at hcl; simp at hcl
          | ok r =>
            obtain ⟨h₁, es'⟩ := r
            rw [hlm] at hcl
            simp only [Except.ok.injEq, Prod.mk.injEq] at hcl
            obtain ⟨rfl, rfl⟩ := hcl
            obtain ⟨⟨ext₁, rfl⟩, hwf₁, hlen₁, hbel₁, hequiv₁⟩ :=
              ihL h es h₁ es' a hlm hwf (le_of_lt haL) hcb
            refine ⟨⟨ext₁ ++ [Cell.arrC es'], by rw [List.append_assoc]⟩,
              ?_, ?_, ?_, ?_⟩
            · exact heapWF_append_single _ _ hwf₁ (by simpa [cellBelow] using hbel₁)
            · simp [valBelow]
            · simp only [rootGE, decide_eq_true_eq, List.length_append]
              omega
            · intro g hg
              cases g with
              | zero => omega
              | succ g =>
                have hcc : ((h ++ ext₁) ++ [Cell.arrC es'])[(h ++ ext₁).length]?
                    = some (Cell.arrC es') := List.getElem?_concat_length _ _
                simp only [equivVal, hcc, hc]
                refine (Bool.and_eq_true _ _).mpr ⟨by simp [hlen₁], ?_⟩
                have hpairs := hequiv₁ g (by omega)
                refine List.all_eq_true.mpr ?_
                intro p hp
                have hmem := List.all_eq_true.mp hpairs p hp
                have hco := equivVal_congr g (h ++ ext₁)
                  ((h ++ ext₁) ++ [Cell.arrC es']) h h p.1 p.2
                  (h ++ ext₁).length a
                  (WFBelow_of_heapWF _ hwf₁)
                  (agreeBelow_append _ _)
                  (List.all_eq_true.mp hbel₁ p.1 (List.of_mem_zip hp).1)
                  (WFBelow_mono a h.length h (le_of_lt haL)
                    (WFBelow_of_heapWF h hwf))
                  (agreeBelow_refl a h)
                  (List.all_eq_true.mp hcb p.2 (List.of_mem_zip hp).2)
                rw [← hco]
                exact hmem
        | objC kvs =>
          rw [hcell] at hc hcb
          simp only [cellBelow] at hcb
          simp only [cloneDeep, hc, bind, Except.bind] at hcl
          cases hguard : kvs.any (fun kv => kv.1 == "length") with
          | true => rw [hguard] at hcl; simp at hcl
          | false =>
            rw [hguard] at hcl
            simp only [Bool.false_eq_true, if_false] at hcl
            cases hlm : cloneEntries fuel h kvs with
            | error err => rw [hlm] at hcl; simp at hcl
            | ok r =>
              obtain ⟨h₁, kvs'⟩ := r
              rw [hlm] at hcl
              simp only [Except.ok.injEq, Prod.mk.injEq] at hcl
              obtain ⟨rfl, rfl⟩ := hcl
              obtain ⟨⟨ext₁, rfl⟩, hwf₁, hlen₁, hbel₁, hequiv₁⟩ :=
                ihE h kvs h₁ kvs' a hlm hwf (le_of_lt haL) hcb
              refine ⟨⟨ext₁ ++ [Cell.objC kvs'], by rw [List.append_assoc]⟩,
                ?_, ?_, ?_, ?_⟩
              · exact heapWF_append_single _ _ hwf₁
                  (by simpa [cellBelow] using hbel₁)
              · simp [valBelow]
              · simp only [rootGE, decide_eq_true_eq, List.length_append]
                omega
              · intro g hg
                cases g with
                | zero => omega
                | succ g =>
                  have hcc : ((h ++ ext₁) ++ [Cell.objC kvs'])[(h ++ ext₁).length]?
                      = some (Cell.objC kvs') := List.getElem?_concat_length _ _
                  simp only [equivVal, hcc, hc]
                  refine (Bool.and_eq_true _ _).mpr ⟨by simp [hlen₁], ?_⟩
                  have hpairs := hequiv₁ g (by omega)
                  refine List.all_eq_true.mpr ?_
                  intro p hp
                  have hmem := List.all_eq_true.mp hpairs p hp
                  rw [Bool.and_eq_true] at hmem
                  refine (Bool.and_eq_true _ _).mpr ⟨hmem.1, ?_⟩
                  have hco := equivVal_congr g (h ++ ext₁)
                    ((h ++ ext₁) ++ [Cell.objC kvs']) h h p.1.2 p.2.2
                    (h ++ ext₁).length a
                    (WFBelow_of_heapWF _ hwf₁)
                    (agreeBelow_append _ _)
                    (List.all_eq_true.mp hbel₁ p.1 (List.of_mem_zip hp).1)
                    (WFBelow_mono a h.length h (le_of_lt haL)
                      (WFBelow_of_heapWF h hwf))
                    (agreeBelow_refl a h)
                    (List.all_eq_true.mp hcb p.2 (List.of_mem_zip hp).2)
                  rw [← hco]
                  exact hmem.2
    -- cloneMany
    · intro h es h' es' b hcl hwf hb hes
      cases es with
      | nil =>
        simp only [cloneMany, Except.ok.injEq, Prod.mk.injEq] at hcl
        obtain ⟨rfl, rfl⟩ := hcl
        exact ⟨⟨[], by simp⟩, hwf, rfl, rfl, fun g hg => rfl⟩
      | cons e es =>
        rw [List.all_cons, Bool.and_eq_true] at hes
        obtain ⟨hesh, hest⟩ := hes
        simp only [cloneMany, bind, Except.bind] at hcl
        cases hle : cloneDeep fuel h e with
        | error err => rw [hle] at hcl; simp at hcl
        | ok r =>
          obtain ⟨h₁, e'⟩ := r
          rw [hle] at hcl
          simp only at hcl
          cases hlm : cloneMany fuel h₁ es with
          | error err => rw [hlm] at hcl; simp at hcl
          | ok r₂ =>
            obtain ⟨h₂, es₂⟩ := r₂
            rw [hlm] at hcl
            simp only [Except.ok.injEq, Prod.mk.injEq] at hcl
            obtain ⟨rfl, rfl⟩ := hcl
            obtain ⟨⟨ext₁, rfl⟩, hwf₁, hbel₁, hroot₁, hequiv₁⟩ :=
              ihV h e h₁ e' b hle hwf hb hesh
            obtain ⟨⟨ext₂, rfl⟩, hwf₂, hlen₂, hbel₂, hequiv₂⟩ :=
              ihL (h ++ ext₁) es h₂ es₂ b hlm hwf₁
                (le_trans hb (by simp)) hest
            have haglow : agreeBelow b h (h ++ ext₁) :=
              agreeBelow_mono b h.length h (h ++ ext₁) hb (agreeBelow_append h ext₁)
            have hwflow : WFBelow b h :=
              WFBelow_mono b h.length h hb (WFBelow_of_heapWF h hwf)
            refine ⟨⟨ext₁ ++ ext₂, by rw [List.append_assoc]⟩, hwf₂,
              by simp [hlen₂], ?_, ?_⟩
            · rw [List.all_cons, Bool.and_eq_true]
              refine ⟨valBelow_mono e' (h ++ ext₁).length _ hbel₁ (by simp), hbel₂⟩
            · intro g hg
              rw [List.zip_cons_cons, List.all_cons, Bool.and_eq_true]
              constructor
              · have hmem := hequiv₁ g hg
                have hco := equivVal_congr g (h ++ ext₁) ((h ++ ext₁) ++ ext₂)
                  h h e' e (h ++ ext₁).length b
                  (WFBelow_of_heapWF _ hwf₁)
                  (agreeBelow_append _ _)
                  hbel₁ hwflow (agreeBelow_refl b h) hesh
                rw [← hco]
                exact hmem
              · have hpairs := hequiv₂ g hg
                refine List.all_eq_true.mpr ?_
                intro p hp
                have hmem := List.all_eq_true.mp hpairs p hp
                have hco := equivVal_congr g ((h ++ ext₁) ++ ext₂)
                  ((h ++ ext₁) ++ ext₂) (h ++ ext₁) h p.1 p.2
                  ((h ++ ext₁) ++ ext₂).length b
                  (WFBelow_of_heapWF _ hwf₂)
                  (agreeBelow_refl _ _)
                  (List.all_eq_true.mp hbel₂ p.1 (List.of_mem_zip hp).1)
                  (WFBelow_of_agree b h (h ++ ext₁) haglow hwflow)
                  (agreeBelow_symm b h (h ++ ext₁) haglow)
                  (List.all_eq_true.mp hest p.2 (List.of_mem_zip hp).2)
                rw [← hco]
                exact hmem
    -- cloneEntries
    · intro h kvs h' kvs' b hcl hwf hb hkvs
      cases kvs with
      | nil =>
        simp only [cloneEntries, Except.ok.injEq, Prod.mk.injEq] at hcl
        obtain ⟨rfl, rfl⟩ := hcl
        exact ⟨⟨[], by simp⟩, hwf, rfl, rfl, fun g hg => rfl⟩
      | cons kv kvs =>
        rw [List.all_cons, Bool.and_eq_true] at hkvs
        obtain ⟨hkvh, hkvt⟩ := hkvs
        simp only [cloneEntries, bind, Except.bind] at hcl
        cases hle : cloneDeep fuel h kv.2 with
        | error err => rw [hle] at hcl; simp at hcl
        | ok r =>
          obtain ⟨h₁, v'⟩ := r
          rw [hle] at hcl
          simp only at hcl
          cases hlm : cloneEntries fuel h₁ kvs with
          | error err => rw [hlm] at hcl; simp at hcl
          | ok r₂ =>
            obtain ⟨h₂, kvs₂⟩ := r₂
            rw [hlm] at hcl
            simp only [Except.ok.injEq, Prod.mk.injEq] at hcl
            obtain ⟨rfl, rfl⟩ := hcl
            obtain ⟨⟨ext₁, rfl⟩, hwf₁, hbel₁, hroot₁, hequiv₁⟩ :=
              ihV h kv.2 h₁ v' b hle hwf hb hkvh
            obtain ⟨⟨ext₂, rfl⟩, hwf₂, hlen₂, hbel₂, hequiv₂⟩ :=
              ihE (h ++ ext₁) kvs h₂ kvs₂ b hlm hwf₁
                (le_trans hb (by simp)) hkvt
            have haglow : agreeBelow b h (h ++ ext₁) :=
              agreeBelow_mono b h.length h (h ++ ext₁) hb (agreeBelow_append h ext₁)
            have hwflow : WFBelow b h :=
              WFBelow_mono b h.length h hb (WFBelow_of_heapWF h hwf)
            refine ⟨⟨ext₁ ++ ext₂, by rw [List.append_assoc]⟩, hwf₂,
              by simp [hlen₂], ?_, ?_⟩
            · rw [List.all_cons, Bool.and_eq_true]
              refine ⟨valBelow_mono v' (h ++ ext₁).length _ hbel₁ (by simp), hbel₂⟩
            · intro g hg
              rw [List.zip_cons_cons, List.all_cons, Bool.and_eq_true]
              constructor
              · refine (Bool.and_eq_true _ _).mpr ⟨by simp, ?_⟩
                have hmem := hequiv₁ g hg
                have hco := equivVal_congr g (h ++ ext₁) ((h ++ ext₁) ++ ext₂)
                  h h v' kv.2 (h ++ ext₁).length b
                  (WFBelow_of_heapWF _ hwf₁)
                  (agreeBelow_append _ _)
                  hbel₁ hwflow (agreeBelow_refl b h) hkvh
                rw [← hco]
                exact hmem
              · have hpairs := hequiv₂ g hg
                refine List.all_eq_true.mpr ?_
                intro p hp
                have hmem := List.all_eq_true.mp hpairs p hp
                rw [Bool.and_eq_true] at hmem
                refine (Bool.and_eq_true _ _).mpr ⟨hmem.1, ?_⟩
                have hco := equivVal_congr g ((h ++ ext₁) ++ ext₂)
                  ((h ++ ext₁) ++ ext₂) (h ++ ext₁) h p.1.2 p.2.2
                  ((h ++ ext₁) ++ ext₂).length b
                  (WFBelow_of_heapWF _ hwf₂)
                  (agreeBelow_refl _ _)
                  (List.all_eq_true.mp hbel₂ p.1 (List.of_mem_zip hp).1)
                  (WFBelow_of_agree b h (h ++ ext₁) haglow hwflow)
                  (agreeBelow_symm b h (h ++ ext₁) haglow)
                  (List.all_eq_true.mp hkvt p.2 (List.of_mem_zip hp).2)
                rw [← hco]
                exact hmem.2

/-- Claim C6 as amended (status corrected): whenever `cloneDeep` returns
a result — it throws on a mapping owning a `length` key, see the
counterexample — the result lives entirely in freshly appended heap
cells, its root is in the fresh region, it is structurally equal to the
source value, and overwriting any cell at-or-above the old heap length
(in particular any cell of the clone) leaves the structural value of the
source unchanged: the clone shares no mutable substructure with the
source. -/
theorem c6_clone_separation (fuel g : Nat) (h h' : Heap) (v v' : JSVal)
    (a : Nat) (c : Cell)
    (hwf : heapWF h = true) (hv : valBelow v h.length = true)
    (hcl : cloneDeep fuel h v = .ok (h', v'))
    (ha : h.length ≤ a) (hg : h.length < g) :
    (∃ ext, h' = h ++ ext) ∧ rootGE v' h.length = true ∧
    equivVal g h' v' h v = true ∧
    equivVal g (h'.set a c) v h v = true := by
  obtain ⟨⟨ext, rfl⟩, hwf', hbel', hroot', hequiv'⟩ :=
    (clone_sound fuel).1 h v _ v' h.length hcl hwf (le_refl _) hv
  have hagset : agreeBelow h.length h ((h ++ ext).set a c) := fun i hi =>
    (agreeBelow_append h ext i hi).trans
      (agreeBelow_set_ge (h ++ ext) a c h.length ha i hi)
  refine ⟨⟨ext, rfl⟩, hroot', hequiv' g hg, ?_⟩
  refine equivVal_diag g ((h ++ ext).set a c) h v h.length
    (WFBelow_of_agree h.length h _ hagset (WFBelow_of_heapWF h hwf))
    (agreeBelow_symm _ _ _ hagset) hv ?_ hg
  simp

/-- Heap for the clone-separation witness: an object cell referenced by
an array cell. -/
def heapCloneDemo : Heap :=
  [Cell.objC [("k", .prim (.num 1))], Cell.arrC [.ref 0, .prim (.num 2)]]

/-- The heap produced by deep-cloning `ref 1` of `heapCloneDemo`: the two
original cells followed by the two fresh cells of the clone. -/
def heapCloneDemoRes : Heap :=
  heapCloneDemo ++
    [Cell.objC [("k", .prim (.num 1))], Cell.arrC [.ref 2, .prim (.num 2)]]

/-- Witness for C6 at a concrete nested value: the clone of the array is
structurally equal to the source, and overwriting the clone root cell
leaves the source value structurally unchanged. -/
theorem c6_clone_separation_witness :
    equivVal 3 heapCloneDemoRes (.ref 3) heapCloneDemo (.ref 1) = true ∧
    equivVal 3 (heapCloneDemoRes.set 3 (Cell.arrC [])) (.ref 1)
      heapCloneDemo (.ref 1) = true :=
  ⟨(c6_clone_separation 10 3 heapCloneDemo heapCloneDemoRes (.ref 1) (.ref 3)
      3 (Cell.arrC []) (by decide) (by decide) (by rfl) (by decide)
      (by decide)).2.2.1,
   (c6_clone_separation 10 3 heapCloneDemo heapCloneDemoRes (.ref 1) (.ref 3)
      3 (Cell.arrC []) (by decide) (by decide) (by rfl) (by decide)
      (by decide)).2.2.2⟩
